import Mathlib

/-!
Verification of the lexical indexing engine of the codebase-agent MCP server.

The definitions below are a shallow embedding of the TypeScript sources:
strings are `List Char`, JavaScript `Map`s are insertion-ordered association
lists, and thrown exceptions are `Except`.  The JavaScript regular expressions
appearing in the source are embedded as hand-written matchers over `List Char`
that follow the regex engine's leftmost / greedy / backtracking behaviour on
the pattern shapes actually used.  Floating point appears only as the constant
score `1.0`, modelled as the constant `1`.  The `imports` table and the
per-file function-name list of the index are not modelled; no property proved
here concerns them.
-/

set_option autoImplicit false

namespace CodebaseAgent

/-! ## Character classes and basic string operations (JS semantics, ASCII) -/

/-- JavaScript whitespace (`\s`), restricted to the ASCII range. -/
def isJsWs (c : Char) : Bool :=
  c = ' ' || c = '\t' || c = '\n' || c = '\r' || c = '\x0b' || c = '\x0c'

/-- JavaScript word character (`\w`): `[A-Za-z0-9_]`. -/
def isWordChar (c : Char) : Bool :=
  ('a' ≤ c && c ≤ 'z') || ('A' ≤ c && c ≤ 'Z') || ('0' ≤ c && c ≤ '9') || c = '_'

/-- Embeds `String.prototype.trim`. -/
def trimJs (s : List Char) : List Char :=
  ((s.dropWhile isJsWs).reverse.dropWhile isJsWs).reverse

/-- Embeds `String.prototype.toLowerCase` (ASCII). -/
def lowerJs (s : List Char) : List Char :=
  s.map Char.toLower

/-! ## The literal-substring regex of `searchCode`

`searchCode` builds `new RegExp(escapeRegex(query), caseSensitive ? "g" : "gi")`
once and calls `.test(line)` on every line.  Because the regex carries the `g`
flag, `.test` starts matching at the regex object's persistent `lastIndex`,
moves `lastIndex` past a successful match, and resets it to `0` on failure.
`escapeRegex` makes the pattern a literal substring match, so the whole
behaviour is captured by substring search from a start offset. -/

/-- Index of the first occurrence of `q` as a contiguous sublist of `s`. -/
def substrIdx (q : List Char) : List Char → Option Nat
  | [] => if q.isEmpty then some 0 else none
  | c :: t =>
    if q.isPrefixOf (c :: t) then some 0
    else (substrIdx q t).map (· + 1)

/-- First occurrence of `q` in `s` at an index `≥ start` (`none` when
`start` lies beyond the end of `s`, as for a JS `lastIndex` overshoot). -/
def findFrom (q s : List Char) (start : Nat) : Option Nat :=
  if start ≤ s.length then (substrIdx q (s.drop start)).map (· + start) else none

/-- One call of `searchRegex.test(s)` for the escaped query `q` under the
`g` (and, unless `cs`, `i`) flags: returns the boolean result together with
the updated `lastIndex`. -/
def regexTestG (q : List Char) (cs : Bool) (s : List Char) (lastIndex : Nat) :
    Bool × Nat :=
  let qq := if cs then q else lowerJs q
  let ss := if cs then s else lowerJs s
  match findFrom qq ss lastIndex with
  | some i => (true, i + qq.length)
  | none => (false, 0)

/-! ## Search engine (`searchCode` in `git.service.ts`) -/

inductive MatchType where
  | exact
  | fuzzy
  | semantic
deriving DecidableEq

structure SearchResult where
  file : List Char
  line : Nat
  content : List Char
  matchType : MatchType
  /-- The constant relevance score `1.0` of the literal-match path,
  modelled as the natural number `1`. -/
  score : Nat
deriving DecidableEq

/-- The `options` argument of `searchCode`.  `filePattern` is the caller's
compiled file-path regex, embedded as its test function. -/
structure SearchOptions where
  filePattern : Option (List Char → Bool)
  caseSensitive : Bool
  limit : Option Nat

/-- Mutable loop state of `searchCode`: results accumulated so far and the
shared regex object's `lastIndex`. -/
structure SearchAcc where
  results : List SearchResult
  lastIndex : Nat

/-- The inner line loop of `searchCode` over one file.  The second component
of the result records whether the `results.length >= limit` early return
fired. -/
def searchFileLines (q : List Char) (cs : Bool) (limit : Nat) (fpath : List Char) :
    Nat → List (List Char) → SearchAcc → SearchAcc × Bool
  | _, [], acc => (acc, false)
  | i, l :: ls, acc =>
    let t := regexTestG q cs l acc.lastIndex
    if t.1 then
      let res := acc.results ++ [⟨fpath, i + 1, trimJs l, MatchType.exact, 1⟩]
      if limit ≤ res.length then (⟨res, t.2⟩, true)
      else searchFileLines q cs limit fpath (i + 1) ls ⟨res, t.2⟩
    else searchFileLines q cs limit fpath (i + 1) ls ⟨acc.results, t.2⟩

/-- The outer file loop of `searchCode` over `index.files` (insertion order),
with the `filePattern` pre-filter. -/
def searchFiles (q : List Char) (cs : Bool) (limit : Nat)
    (fp : Option (List Char → Bool)) :
    List (List Char × List Char) → SearchAcc → List SearchResult
  | [], acc => acc.results
  | (p, content) :: fs, acc =>
    if (match fp with | some pat => !(pat p) | none => false) then
      searchFiles q cs limit fp fs acc
    else
      let r := searchFileLines q cs limit p 0 (content.splitOn '\n') acc
      if r.2 then r.1.results else searchFiles q cs limit fp fs r.1

/-! ## Regex matchers for the extraction patterns

Each matcher consumes a `List Char` and either fails or returns the remaining
input (plus captures).  Optional groups and alternations are tried
left-to-right with backtracking via `<|>`, mirroring the JS engine. -/

/-- Literal token of a regex: consume `w` or fail. -/
def lit (w : String) (s : List Char) : Option (List Char) :=
  if w.toList.isPrefixOf s then some (s.drop w.toList.length) else none

/-- Embeds `\s+` (greedy; nothing that can follow it here matches whitespace). -/
def ws1 (s : List Char) : Option (List Char) :=
  match s with
  | c :: r => if isJsWs c then some (r.dropWhile isJsWs) else none
  | [] => none

/-- Embeds `\s*`. -/
def ws0 (s : List Char) : List Char :=
  s.dropWhile isJsWs

/-- Embeds `(\w+)` (greedy): capture and remainder. -/
def word1 (s : List Char) : Option (List Char × List Char) :=
  let w := s.takeWhile isWordChar
  if w.isEmpty then none else some (w, s.drop w.length)

/-- Embeds `([^)]*)`: capture everything up to the next `)` (or the end). -/
def noRParen (s : List Char) : List Char × List Char :=
  (s.takeWhile (· ≠ ')'), s.dropWhile (· ≠ ')'))

/-- A keyword followed by `\s+`, e.g. the group `(?:export\s+)?` body. -/
def kwsp (w : String) (s : List Char) : Option (List Char) :=
  (lit w s).bind ws1

/-! ### The four declaration patterns of `extractFunctions` -/

/-- Shared tail `(\w+)\s*\(([^)]*)\)` of patterns 1–3: name, `(`, raw
parameter text, `)`.  Returns `(name, params, rest)`. -/
def nameParams (s : List Char) : Option (List Char × List Char × List Char) := do
  let (name, s) ← word1 s
  let s := ws0 s
  let s ← lit "(" s
  let (params, s) := noRParen s
  let s ← lit ")" s
  pure (name, params, s)

/-- Embeds `^(?:export\s+)?(?:async\s+)?function\s+(\w+)\s*\(([^)]*)\)`. -/
def declPat1 (s : List Char) : Option (List Char × List Char) :=
  let core := fun (s : List Char) => do
    let s ← lit "function" s
    let s ← ws1 s
    let (name, params, _) ← nameParams s
    pure (name, params)
  let afterExport := fun (s : List Char) => ((kwsp "async" s).bind core) <|> core s
  ((kwsp "export" s).bind afterExport) <|> afterExport s

/-- Embeds `^(?:export\s+)?(?:const|let|var)\s+(\w+)\s*=\s*(?:async\s+)?\(([^)]*)\)\s*=>`. -/
def declPat2 (s : List Char) : Option (List Char × List Char) :=
  let core := fun (s : List Char) => do
    let s ← (lit "const" s <|> lit "let" s <|> lit "var" s)
    let s ← ws1 s
    let (name, s) ← word1 s
    let s := ws0 s
    let s ← lit "=" s
    let s := ws0 s
    let body := fun (s : List Char) => do
      let s ← lit "(" s
      let (params, s) := noRParen s
      let s ← lit ")" s
      let s := ws0 s
      let _ ← lit "=>" s
      pure (name, params)
    ((kwsp "async" s).bind body) <|> body s
  ((kwsp "export" s).bind core) <|> core s

/-- Embeds `^(?:export\s+)?(?:const|let|var)\s+(\w+)\s*=\s*(?:async\s+)?function\s*\(([^)]*)\)`. -/
def declPat3 (s : List Char) : Option (List Char × List Char) :=
  let core := fun (s : List Char) => do
    let s ← (lit "const" s <|> lit "let" s <|> lit "var" s)
    let s ← ws1 s
    let (name, s) ← word1 s
    let s := ws0 s
    let s ← lit "=" s
    let s := ws0 s
    let body := fun (s : List Char) => do
      let s ← lit "function" s
      let s := ws0 s
      let s ← lit "(" s
      let (params, s) := noRParen s
      let _ ← lit ")" s
      pure (name, params)
    ((kwsp "async" s).bind body) <|> body s
  ((kwsp "export" s).bind core) <|> core s

/-- Embeds `^\s*(?:public|private|protected)?\s*(?:static\s+)?(?:async\s+)?(\w+)\s*\(([^)]*)\)\s*(?::\s*\w+)?\s*\x7b`. -/
def declPat4 (s : List Char) : Option (List Char × List Char) :=
  let s := ws0 s
  let tail3 := fun (np : List Char × List Char × List Char) => do
    let (name, params, s) := np
    let s := ws0 s
    let retTy := fun (s : List Char) => do
      let s ← lit ":" s
      let s := ws0 s
      let (_, s) ← word1 s
      pure s
    let closing := fun (s : List Char) => do
      let s := ws0 s
      let _ ← lit "\x7b" s
      pure (name, params)
    ((retTy s).bind closing) <|> closing s
  let tail2 := fun (s : List Char) => (nameParams s).bind tail3
  let tail1 := fun (s : List Char) => ((kwsp "async" s).bind tail2) <|> tail2 s
  let tail0 := fun (s : List Char) => ((kwsp "static" s).bind tail1) <|> tail1 s
  let afterMod := fun (s : List Char) => tail0 (ws0 s)
  ((lit "public" s).bind afterMod) <|> ((lit "private" s).bind afterMod) <|>
    ((lit "protected" s).bind afterMod) <|> afterMod s

/-- The ordered `functionPatterns` loop of `extractFunctions`: the first
pattern matching the trimmed line wins, capturing name and raw parameters. -/
def declMatch (s : List Char) : Option (List Char × List Char) :=
  declPat1 s <|> declPat2 s <|> declPat3 s <|> declPat4 s

/-! ## `extractFunctions` (detailed function records) -/

structure FunctionInfoM where
  name : List Char
  file : List Char
  startLine : Nat
  endLine : Nat
  signature : List Char
  calls : List (List Char)
  calledBy : List (List Char)
deriving DecidableEq

/-- Loop state of `extractFunctions`: output list, `currentFunction`,
`braceCount`, `inFunction`. -/
structure ExtractState where
  functions : List FunctionInfoM
  current : Option FunctionInfoM
  braceCount : Int
  inFunction : Bool
deriving DecidableEq

/-- The declaration-detection block of one `extractFunctions` iteration
(`i` is the 0-based index of `line`). -/
def declPhase (filePath : List Char) (i : Nat) (line : List Char)
    (st : ExtractState) : ExtractState :=
  match declMatch (trimJs line) with
  | some nm =>
    let fns :=
      match st.current, st.inFunction with
      | some f, true => st.functions ++ [{ f with endLine := i }]
      | _, _ => st.functions
    { functions := fns,
      current := some ⟨nm.1, filePath, i + 1, i + 1,
        nm.1 ++ '(' :: nm.2 ++ [')'], [], []⟩,
      braceCount := 0,
      inFunction := true }
  | none => st

/-- The brace-tracking block of one `extractFunctions` iteration. -/
def bracePhase (i : Nat) (line : List Char) (st : ExtractState) : ExtractState :=
  match st.inFunction, st.current with
  | true, some f =>
    let bc : Int := st.braceCount + (line.count '\x7b' : Int) - (line.count '\x7d' : Int)
    if bc ≤ 0 ∧ '\x7d' ∈ line then
      { functions := st.functions ++ [{ f with endLine := i + 1 }],
        current := none, braceCount := bc, inFunction := false }
    else { st with braceCount := bc }
  | _, _ => st

/-- One iteration of the `extractFunctions` line loop. -/
def processLine (filePath : List Char) (i : Nat) (line : List Char)
    (st : ExtractState) : ExtractState :=
  bracePhase i line (declPhase filePath i line st)

/-- The `for (let i = 0; i < lines.length; i++)` loop of `extractFunctions`. -/
def extractLoop (filePath : List Char) :
    Nat → List (List Char) → ExtractState → ExtractState
  | _, [], st => st
  | i, l :: ls, st => extractLoop filePath (i + 1) ls (processLine filePath i l st)

/-- Embeds `extractFunctions(content, filePath, language)`. -/
def extractFunctions (content filePath _language : List Char) :
    List FunctionInfoM :=
  let lines := content.splitOn '\n'
  let final := extractLoop filePath 0 lines ⟨[], none, 0, false⟩
  match final.current, final.inFunction with
  | some f, true => final.functions ++ [{ f with endLine := lines.length }]
  | _, _ => final.functions

/-! ## `extractExports` -/

/-- Run an unanchored pattern the way `String.prototype.match` does: try the
matcher at position 0, then advance one character at a time (leftmost match). -/
def searchPat {α : Type} (p : List Char → Option α) : List Char → Option α
  | [] => p []
  | s@(_ :: t) => p s <|> searchPat p t

/-- Embeds `/export\s+(?:default\s+)?(?:const|let|var|function|class|async\s+function)\s+(\w+)/`
at one position. -/
def exportPat1At (s : List Char) : Option (List Char) := do
  let s ← kwsp "export" s
  let core := fun (s : List Char) => do
    let s ← (lit "const" s <|> lit "let" s <|> lit "var" s <|> lit "function" s
      <|> lit "class" s <|> ((kwsp "async" s).bind (lit "function")))
    let s ← ws1 s
    let (name, _) ← word1 s
    pure name
  ((kwsp "default" s).bind core) <|> core s

/-- Embeds `/export\s+\x7b\s*([^\x7d]+)\s*\x7d/` at one position (the braced
export-list form); the capture is the raw text between the braces. -/
def exportPat2At (s : List Char) : Option (List Char) := do
  let s ← kwsp "export" s
  let s ← lit "\x7b" s
  let s := ws0 s
  let body := s.takeWhile (· ≠ '\x7d')
  let s := s.dropWhile (· ≠ '\x7d')
  let _ ← lit "\x7d" s
  if body.isEmpty then none else pure body

/-- Embeds `/module\.exports\s*=\s*(\w+)/` at one position. -/
def exportPat3At (s : List Char) : Option (List Char) := do
  let s ← lit "module.exports" s
  let s := ws0 s
  let s ← lit "=" s
  let s := ws0 s
  let (name, _) ← word1 s
  pure name

/-- Embeds `/exports\.(\w+)\s*=/` at one position. -/
def exportPat4At (s : List Char) : Option (List Char) := do
  let s ← lit "exports." s
  let (name, s) ← word1 s
  let s := ws0 s
  let _ ← lit "=" s
  pure name

/-- Embeds `\s+as\s+` matched at the head of `s`. -/
def wsAsWs (s : List Char) : Option (List Char) :=
  (ws1 s).bind (fun s => (lit "as" s).bind ws1)

/-- Embeds `split(/\s+as\s+/)[0]`: the prefix before the first `as` separator. -/
def beforeAs : List Char → List Char
  | [] => []
  | s@(c :: t) => if (wsAsWs s).isSome then [] else c :: beforeAs t

/-- Embeds `match[1].split(",").map(s => s.trim().split(/\s+as\s+/)[0])` followed by
`.filter(Boolean)`. -/
def splitExportItems (cap : List Char) : List (List Char) :=
  ((cap.splitOn ',').map (fun s => beforeAs (trimJs s))).filter (· ≠ [])

/-- Embeds `[...new Set(xs)]`: deduplicate keeping the first occurrence. -/
def dedupSet (xs : List (List Char)) : List (List Char) :=
  xs.foldl (fun acc x => if x ∈ acc then acc else acc ++ [x]) []

/-- One line of `extractExports`: every one of the four patterns that matches
contributes its processed items (the pattern loop has no break). -/
def exportLineItems (line : List Char) : List (List Char) :=
  ([searchPat exportPat1At line, searchPat exportPat2At line,
    searchPat exportPat3At line, searchPat exportPat4At line].filterMap id).flatMap
    splitExportItems

/-- Embeds `extractExports(content, language)`. -/
def extractExports (content _language : List Char) : List (List Char) :=
  dedupSet ((content.splitOn '\n').flatMap exportLineItems)

/-! ## Repository identity, stores, and the repository data model -/

inductive RemoteKind where
  | github
  | gitlab
  | localRemote
deriving DecidableEq

/-- The string value of the `remote` enum (`"github" | "gitlab" | "local"`). -/
def remoteStr : RemoteKind → List Char
  | .github => "github".toList
  | .gitlab => "gitlab".toList
  | .localRemote => "local".toList

/-- Embeds `generateRepoId(remote, owner, name, branch)` =
``` `${remote}:${branch}:${owner}/${name}` ```. -/
def generateRepoId (remote : RemoteKind) (owner name branch : List Char) :
    List Char :=
  remoteStr remote ++ ':' :: branch ++ ':' :: owner ++ '/' :: name

inductive RepoStatus where
  | pending
  | indexing
  | ready
  | error
deriving DecidableEq

structure RepositoryM where
  id : List Char
  remote : RemoteKind
  owner : List Char
  name : List Char
  branch : List Char
  status : RepoStatus
  filesProcessed : Nat
  totalFiles : Nat
deriving DecidableEq

/-- Embeds `Map.prototype.set`: replace the value in place when the key exists,
append a fresh entry otherwise (JS `Map`s iterate in insertion order). -/
def mapSet {α : Type} (m : List (List Char × α)) (k : List Char) (v : α) :
    List (List Char × α) :=
  match m with
  | [] => [(k, v)]
  | (k', v') :: rest => if k' = k then (k, v) :: rest else (k', v') :: mapSet rest k v

/-- Embeds `Map.prototype.get`. -/
def lookupM {α : Type} (m : List (List Char × α)) (k : List Char) : Option α :=
  match m with
  | [] => none
  | (k', v) :: rest => if k' = k then some v else lookupM rest k

/-- Embeds `setRepository(repoId, repo)` over the explicit repository store. -/
def setRepository (store : List (List Char × RepositoryM)) (repoId : List Char)
    (repo : RepositoryM) : List (List Char × RepositoryM) :=
  mapSet store repoId repo

/-! ## Indexed files and `searchCode` -/

structure FileContentM where
  path : List Char
  content : List Char
  language : List Char
  lines : Nat
  exports : List (List Char)
deriving DecidableEq

/-- The `RepositoryIndex` aggregate (files, function records keyed by
`path:name`, export lists keyed by path). -/
structure RepositoryIndexM where
  files : List (List Char × FileContentM)
  functions : List (List Char × FunctionInfoM)
  exports : List (List Char × List (List Char))
deriving DecidableEq

/-- The body of `searchCode` after the index lookup: `limit = options.limit || 50`,
then the file/line scan with one shared global regex. -/
def searchCodeIndexed (idx : RepositoryIndexM) (query : List Char)
    (options : SearchOptions) : List SearchResult :=
  let limit := match options.limit with
    | none => 50
    | some l => if l = 0 then 50 else l
  searchFiles query options.caseSensitive limit options.filePattern
    (idx.files.map (fun pf => (pf.1, pf.2.content))) ⟨[], 0⟩

/-- Embeds `searchCode(repoId, query, options)`: throwing
`Repository ${repoId} not indexed` when the index store has no entry. -/
def searchCode (indexStore : List (List Char × RepositoryIndexM))
    (repoId query : List Char) (options : SearchOptions) :
    Except (List Char) (List SearchResult) :=
  match lookupM indexStore repoId with
  | none => .error ("Repository ".toList ++ repoId ++ " not indexed".toList)
  | some idx => .ok (searchCodeIndexed idx query options)

/-! ## Constants (`constants.ts`) -/

/-- The indexable extension set `CODE_EXTENSIONS`. -/
def CODE_EXTENSIONS : List (List Char) :=
  [".ts", ".tsx", ".js", ".jsx", ".mjs", ".cjs",
   ".py", ".pyw",
   ".java", ".kt", ".scala",
   ".go",
   ".rs",
   ".c", ".cpp", ".cc", ".h", ".hpp",
   ".cs",
   ".rb",
   ".php",
   ".swift",
   ".vue", ".svelte",
   ".sql",
   ".sh", ".bash", ".zsh",
   ".yaml", ".yml",
   ".json",
   ".xml",
   ".html", ".css", ".scss", ".sass", ".less",
   ".md", ".mdx",
   ".graphql", ".gql",
   ".proto",
   ".tf", ".tfvars"].map String.toList

/-- The built-in exclusion list `IGNORE_PATTERNS`. -/
def IGNORE_PATTERNS : List (List Char) :=
  ["node_modules", ".git", ".svn", ".hg", "dist", "build", "out",
   ".next", ".nuxt", "__pycache__", ".pytest_cache", "venv", ".venv",
   "env", ".env", "target", "bin", "obj", ".idea", ".vscode",
   "*.min.js", "*.min.css", "*.map", "*.lock",
   "package-lock.json", "yarn.lock", "pnpm-lock.yaml", "*.log"].map String.toList

/-- The `LANGUAGE_MAP` extension → language table. -/
def LANGUAGE_MAP : List (List Char × List Char) :=
  [(".ts", "typescript"), (".tsx", "typescript"),
   (".js", "javascript"), (".jsx", "javascript"),
   (".mjs", "javascript"), (".cjs", "javascript"),
   (".py", "python"), (".pyw", "python"),
   (".java", "java"), (".kt", "kotlin"), (".scala", "scala"),
   (".go", "go"), (".rs", "rust"),
   (".c", "c"), (".cpp", "cpp"), (".cc", "cpp"), (".h", "c"), (".hpp", "cpp"),
   (".cs", "csharp"), (".rb", "ruby"), (".php", "php"), (".swift", "swift"),
   (".vue", "vue"), (".svelte", "svelte"), (".sql", "sql"),
   (".sh", "bash"), (".bash", "bash"), (".zsh", "zsh"),
   (".yaml", "yaml"), (".yml", "yaml"), (".json", "json"), (".xml", "xml"),
   (".html", "html"), (".css", "css"), (".scss", "scss"), (".sass", "sass"),
   (".less", "less"), (".md", "markdown"), (".mdx", "mdx"),
   (".graphql", "graphql"), (".gql", "graphql"), (".proto", "protobuf"),
   (".tf", "terraform"), (".tfvars", "terraform")].map
    (fun p => (p.1.toList, p.2.toList))

/-- Embeds `LANGUAGE_MAP[ext] || "unknown"`. -/
def languageFor (ext : List Char) : List Char :=
  (lookupM LANGUAGE_MAP ext).getD "unknown".toList

/-! ## The ignore-rule resolver (`ignore` package as used by `indexRepository`) -/

/-- One parsed ignore rule: negated when the pattern line starts with `!`. -/
structure IgnoreRule where
  negated : Bool
  pattern : List Char
deriving DecidableEq

/-- Parses one ignore pattern line. -/
def parseRule (p : List Char) : IgnoreRule :=
  match p with
  | '!' :: rest => ⟨true, rest⟩
  | _ => ⟨false, p⟩

/-- Glob match of a pattern against one path segment: `*` matches any
(possibly empty) run of characters within the segment, `?` any single
character, anything else itself. -/
def globMatch : List Char → List Char → Bool
  | [], s => s.isEmpty
  | '*' :: p, s => s.tails.any (fun t => globMatch p t)
  | c :: p, s =>
    match s with
    | [] => false
    | c' :: s' => (c = '?' || c = c') && globMatch p s'

/-- Segment-wise anchored match for patterns containing `/`: the pattern's
segments must glob-match an initial run of the path's segments (a matched
directory covers everything beneath it). -/
def segsMatch : List (List Char) → List (List Char) → Bool
  | [], _ => true
  | _ :: _, [] => false
  | p :: ps, s :: ss => globMatch p s && segsMatch ps ss

/-- Whether one ignore pattern matches a repository-relative path, in the
gitignore convention: a pattern without `/` matches any path segment (and
thereby everything under a matched directory); a pattern with `/` is anchored
at the repository root. -/
def ruleMatches (pat path : List Char) : Bool :=
  let segs := path.splitOn '/'
  if pat.contains '/' then
    let anchored := match pat with
      | '/' :: rest => rest
      | _ => pat
    segsMatch (anchored.splitOn '/') segs
  else
    segs.any (fun seg => globMatch pat seg)

/-- Embeds `ig.ignores(path)` for an ordered rule list: the last matching
rule decides, a negated rule un-ignoring, a plain rule ignoring. -/
def ignores (rules : List IgnoreRule) (path : List Char) : Bool :=
  rules.foldl (fun acc r => if ruleMatches r.pattern path then !r.negated else acc)
    false

/-! ## The indexing pass (`indexRepository`), pure core

The clone/read/glob I/O is out of scope; the pure core takes the repository's
own ignore-file lines and the globbed `(path, content)` list and performs
eligibility filtering plus index construction. -/

/-- The combined rule list: repository rules first, then the built-in
exclusions (`ig.add(gitignoreContent); ig.add(IGNORE_PATTERNS)`). -/
def allIgnoreRules (repoRules : List (List Char)) : List IgnoreRule :=
  (repoRules ++ IGNORE_PATTERNS).map parseRule

/-- Embeds `path.basename`. -/
def basenameOf (p : List Char) : List Char :=
  (p.reverse.takeWhile (· ≠ '/')).reverse

/-- Embeds `path.extname`: the suffix of the basename from its last `.`,
empty when the basename has no `.` or only a leading one. -/
def extnameOf (p : List Char) : List Char :=
  let base := basenameOf p
  let afterDot := (base.reverse.takeWhile (· ≠ '.')).reverse
  if afterDot.length = base.length then []
  else if base.length = afterDot.length + 1 ∧ base.headI = '.' then []
  else '.' :: afterDot

/-- The `codeFiles` filter of `indexRepository`: extension in
`CODE_EXTENSIONS` (lower-cased) and not ignored. -/
def eligibleFiles (repoRules : List (List Char))
    (allFiles : List (List Char × List Char)) : List (List Char × List Char) :=
  let rules := allIgnoreRules repoRules
  allFiles.filter (fun f =>
    decide (lowerJs (extnameOf f.1) ∈ CODE_EXTENSIONS) && !(ignores rules f.1))

/-- Per-file `FileContent` assembly of `indexRepository` (modelled fields). -/
def mkFileContent (path content : List Char) : FileContentM :=
  { path := path
    content := content
    language := languageFor (lowerJs (extnameOf path))
    lines := (content.splitOn '\n').length
    exports := extractExports content (languageFor (lowerJs (extnameOf path))) }

/-- Result of the pure indexing pass: the aggregate plus the `totalFiles`
and `filesProcessed` counters. -/
structure IndexBuild where
  index : RepositoryIndexM
  totalFiles : Nat
  filesProcessed : Nat
deriving DecidableEq

/-- The pure core of `indexRepository`: filter eligible files, then build the
`files`, `functions` (keyed `path:name`) and `exports` tables. -/
def indexRepository (repoRules : List (List Char))
    (allFiles : List (List Char × List Char)) : IndexBuild :=
  let codeFiles := eligibleFiles repoRules allFiles
  let files := codeFiles.foldl (fun m f => mapSet m f.1 (mkFileContent f.1 f.2)) []
  let functions := codeFiles.foldl (fun m f =>
    (extractFunctions f.2 f.1 (languageFor (lowerJs (extnameOf f.1)))).foldl
      (fun m2 fn => mapSet m2 (f.1 ++ ':' :: fn.name) fn) m) []
  let exps := codeFiles.foldl (fun m f =>
    mapSet m f.1 (extractExports f.2 (languageFor (lowerJs (extnameOf f.1))))) []
  { index := { files := files, functions := functions, exports := exps }
    totalFiles := codeFiles.length
    filesProcessed := codeFiles.length }

/-! ## Query router (`search.tools.ts`) -/

/-- The fixed stop-word set of `extractKeywords`. -/
def stopWords : List (List Char) :=
  ["the", "is", "at", "which", "on", "a", "an", "and", "or", "but",
   "in", "with", "to", "for", "of", "how", "does", "what", "where",
   "why", "when", "who", "this", "that", "these", "those", "are",
   "was"].map String.toList

/-- Embeds `replace(/[^\w\s]/g, " ")`. -/
def stripPunct (s : List Char) : List Char :=
  s.map (fun c => if isWordChar c || isJsWs c then c else ' ')

/-- Embeds `split(/\s+/)` (JS semantics: maximal whitespace runs separate
tokens, with an empty token at either end when the string starts or ends
with whitespace). -/
def splitWs : List Char → List (List Char)
  | [] => [[]]
  | c :: rest =>
    let ts := splitWs rest
    if isJsWs c then
      match rest with
      | r :: _ => if isJsWs r then ts else [] :: ts
      | [] => [] :: ts
    else
      match ts with
      | [] => [[c]]
      | t :: ts' => (c :: t) :: ts'

/-- Embeds `extractKeywords(query)`: lower-case, strip punctuation, split on
whitespace, drop short and stop-word tokens, cap at 10. -/
def extractKeywords (query : List Char) : List (List Char) :=
  (((splitWs (stripPunct (lowerJs query))).filter
    (fun w => 2 < w.length && !(decide (w ∈ stopWords)))).take 10)

/-- One accumulated result of the `git_query_codebase` handler. -/
structure QItem where
  repoId : List Char
  file : List Char
  line : Nat
  content : List Char
deriving DecidableEq

/-- The dedup key ``` `${r.repoId}:${r.file}:${r.line}` ```. -/
def dedupKey (r : QItem) : List Char :=
  r.repoId ++ ':' :: r.file ++ ':' :: (toString r.line).toList

/-- Embeds `deduplicateResults`: a fold over the list with a seen-key set,
keeping a result only when its key is new. -/
def deduplicateResults (results : List QItem) : List QItem :=
  (results.foldl
    (fun st r =>
      if dedupKey r ∈ st.2 then st
      else (st.1 ++ [r], dedupKey r :: st.2))
    (([], []) : List QItem × List (List Char))).1

/-- Spec-side description of first-occurrence deduplication, for comparison
with `deduplicateResults`: keep each element whose key has not occurred
earlier in the list. -/
def firstOccurrencePerKey : List QItem → List QItem
  | [] => []
  | r :: rest =>
    r :: firstOccurrencePerKey (rest.filter (fun x => dedupKey x ≠ dedupKey r))
termination_by l => l.length
decreasing_by
  simpa using Nat.lt_succ_of_le (rest.length_filter_le _)

/-- One repository reference of a tool request. -/
structure RepoRef where
  remote : RemoteKind
  owner : List Char
  repository : List Char
  branch : List Char
deriving DecidableEq

/-- The accumulation loop of the `git_query_codebase` handler: for every
requested repository at status `ready`, one `searchCode` call per extracted
keyword with `{ limit: 10 }`, all results appended in order.  A `searchCode`
throw propagates as the handler's caught error. -/
def queryAllResults (repoStore : List (List Char × RepositoryM))
    (indexStore : List (List Char × RepositoryIndexM))
    (repositories : List RepoRef) (query : List Char) :
    Except (List Char) (List QItem) :=
  repositories.foldlM
    (fun acc repo =>
      let repoId := generateRepoId repo.remote repo.owner repo.repository repo.branch
      match lookupM repoStore repoId with
      | some repoData =>
        if repoData.status = RepoStatus.ready then
          (extractKeywords query).foldlM
            (fun acc2 kw => do
              let results ← searchCode indexStore repoId kw ⟨none, false, some 10⟩
              pure (acc2 ++ results.map (fun r => ⟨repoId, r.file, r.line, r.content⟩)))
            acc
        else pure acc
      | none => pure acc)
    []

/-- Boundary-layer validation of `SearchCodeInputSchema.limit`
(integer, minimum 1, maximum 100, default 20): the validated value, or
`none` when the request is rejected. -/
def searchLimitSchema (l : Option Nat) : Option Nat :=
  match l with
  | none => some 20
  | some v => if 1 ≤ v ∧ v ≤ 100 then some v else none

/-- The repository id computed by the tool handlers from a request's
repository reference. -/
def refId (repo : RepoRef) : List Char :=
  generateRepoId repo.remote repo.owner repo.repository repo.branch

/-- Whether the `git_query_codebase` handler accepts a repository:
registered and at status `ready`. -/
def isReadyIn (repoStore : List (List Char × RepositoryM)) (repo : RepoRef) :
    Bool :=
  match lookupM repoStore (refId repo) with
  | some d => decide (d.status = RepoStatus.ready)
  | none => false

/-- The contribution of one `(repository, keyword)` pair to the accumulated
result set of `git_query_codebase`: the `searchCode` results under
`{ limit: 10 }`, tagged with the repository id. -/
def pairResults (indexStore : List (List Char × RepositoryIndexM))
    (rid kw : List Char) : List QItem :=
  match lookupM indexStore rid with
  | some idx =>
    (searchCodeIndexed idx kw ⟨none, false, some 10⟩).map
      (fun r => ⟨rid, r.file, r.line, r.content⟩)
  | none => []

/-! ## Concrete instances used by the evaluation theorems -/

/-- Scenario A file body: the exported arrow function
`export const add = (a, b) => a + b`. -/
def scenarioAContent : List Char :=
  "export const add = (a, b) => a + b".toList

/-- An index of one file `a.ts` whose two lines both read `ab`. -/
def bugIndex : RepositoryIndexM :=
  (indexRepository [] [("a.ts".toList, "ab\nab".toList)]).index

/-- Three lines: an unclosed function `a`, a filler line, and a second
declaration `b`. -/
def demoContent : List Char :=
  "function a(x) \x7b\nlet z = 1\nfunction b(y) \x7b".toList

/-- The record for `a` while still open (as of line 1). -/
def recA : FunctionInfoM :=
  ⟨"a".toList, "f.ts".toList, 1, 1, "a(x)".toList, [], []⟩

/-- A sample stored repository record. -/
def demoRepo : RepositoryM :=
  ⟨"id".toList, .github, "alice".toList, "x".toList, "main".toList, .ready, 0, 0⟩

/-- Request reference for the query-tool examples. -/
def qRef : RepoRef := ⟨.github, "o".toList, "n".toList, "main".toList⟩

/-- Its repository id. -/
def qRepoId : List Char :=
  generateRepoId .github "o".toList "n".toList "main".toList

/-- A ready repository record under that id. -/
def qRepo : RepositoryM :=
  ⟨qRepoId, .github, "o".toList, "n".toList, "main".toList, .ready, 1, 1⟩

/-- The Scenario A index stored under that id. -/
def qIndex : RepositoryIndexM :=
  (indexRepository [] [("main.ts".toList, scenarioAContent)]).index

/-- One accumulated match of a line, found by a first keyword. -/
def dupA : QItem := ⟨"r".toList, "f".toList, 1, "x".toList⟩

/-- The same `(repository, file, line)` triple found by a second keyword. -/
def dupB : QItem := ⟨"r".toList, "f".toList, 1, "y".toList⟩

/-! ## Result-cap lemmas for the search engine -/

lemma searchFileLines_cap (q : List Char) (cs : Bool) (limit : Nat)
    (fpath : List Char) :
    ∀ (ls : List (List Char)) (i : Nat) (acc : SearchAcc),
      acc.results.length < limit →
      (searchFileLines q cs limit fpath i ls acc).1.results.length ≤ limit ∧
      ((searchFileLines q cs limit fpath i ls acc).2 = false →
        (searchFileLines q cs limit fpath i ls acc).1.results.length < limit) := by
  intro ls
  induction ls with
  | nil =>
    intro i acc h
    simp only [searchFileLines]
    exact ⟨Nat.le_of_lt h, fun _ => h⟩
  | cons l ls ih =>
    intro i acc h
    simp only [searchFileLines]
    split
    · split
      next hstop =>
        refine ⟨?_, fun hf => by simp at hf⟩
        dsimp only
        simp only [List.length_append, List.length_cons, List.length_nil]
        omega
      next hstop =>
        apply ih
        dsimp only
        omega
    · exact ih (i + 1) ⟨acc.results, _⟩ h

lemma searchFiles_cap (q : List Char) (cs : Bool) (limit : Nat)
    (fp : Option (List Char → Bool)) :
    ∀ (fs : List (List Char × List Char)) (acc : SearchAcc),
      acc.results.length < limit →
      (searchFiles q cs limit fp fs acc).length ≤ limit := by
  intro fs
  induction fs with
  | nil =>
    intro acc h
    simpa [searchFiles] using Nat.le_of_lt h
  | cons f fs ih =>
    intro acc h
    obtain ⟨p, content⟩ := f
    simp only [searchFiles]
    split
    · exact ih acc h
    · have hr := searchFileLines_cap q cs limit p (content.splitOn '\n') 0 acc h
      split
      next => exact hr.1
      next hf => exact ih _ (hr.2 (by simpa using hf))

lemma searchCodeIndexed_length_le (idx : RepositoryIndexM) (q : List Char)
    (fp : Option (List Char → Bool)) (cs : Bool) (L : Nat) (h : 1 ≤ L) :
    (searchCodeIndexed idx q ⟨fp, cs, some L⟩).length ≤ L := by
  have h0 : ¬(L = 0) := by omega
  have h50 : (if L = 0 then 50 else L) = L := if_neg h0
  simp only [searchCodeIndexed, h50]
  exact searchFiles_cap q cs L fp _ ⟨[], 0⟩ (by simpa using h)

/-! ## Claim theorems -/

/-- C1.  The claim states that `searchCode` returns one `SearchResult` for
every line containing the query as a (case-insensitively matched) literal
substring.  The code violates this: the single global-flagged regex object
carries its `lastIndex` from one `.test` call to the next, so after a match
the next line is scanned only from the previous match's end offset.  On an
index holding one file `a.ts` with the two lines `ab` and `ab`, the query
`ab` under default options yields only the line-1 result even though both
lines contain the query. -/
theorem searchCode_skips_matching_line :
    searchCodeIndexed bugIndex "ab".toList ⟨none, false, none⟩ =
      [⟨"a.ts".toList, 1, "ab".toList, MatchType.exact, 1⟩] ∧
    (("ab\nab".toList.splitOn '\n').map
      (fun l => (substrIdx (lowerJs "ab".toList) (lowerJs l)).isSome)) =
      [true, true] := by
  decide

/-- C3.  For any search with `limit = L ≥ 1`, `searchCode` returns at most
`L` results; and for any limit admitted by the boundary schema
(`SearchCodeInputSchema.limit`, capped at 100), it returns at most 100
results. -/
theorem searchCode_cap_invariant (idx : RepositoryIndexM) (q : List Char)
    (fp : Option (List Char → Bool)) (cs : Bool) (L : Nat) (h : 1 ≤ L) :
    (searchCodeIndexed idx q ⟨fp, cs, some L⟩).length ≤ L ∧
    ∀ lreq L', searchLimitSchema lreq = some L' →
      (searchCodeIndexed idx q ⟨fp, cs, some L'⟩).length ≤ 100 := by
  refine ⟨searchCodeIndexed_length_le idx q fp cs L h, ?_⟩
  intro lreq L' hL'
  have hrange : 1 ≤ L' ∧ L' ≤ 100 := by
    cases lreq with
    | none =>
      simp only [searchLimitSchema, Option.some.injEq] at hL'
      omega
    | some v =>
      simp only [searchLimitSchema] at hL'
      split at hL'
      next hv =>
        simp only [Option.some.injEq] at hL'
        omega
      next => cases hL'
  exact le_trans (searchCodeIndexed_length_le idx q fp cs L' hrange.1) hrange.2

/-- Witness for C3 at `L = 1` on the concrete two-line index. -/
theorem searchCode_cap_invariant_witness :
    1 ≤ 1 ∧
    ((searchCodeIndexed bugIndex "ab".toList ⟨none, false, some 1⟩).length ≤ 1 ∧
      ∀ lreq L', searchLimitSchema lreq = some L' →
        (searchCodeIndexed bugIndex "ab".toList ⟨none, false, some L'⟩).length ≤ 100) :=
  ⟨by decide, searchCode_cap_invariant bugIndex "ab".toList none false 1 (by decide)⟩

/-- C5.  Searching a repository whose `RepositoryIndex` does not exist
raises the tagged error `Repository ${repoId} not indexed` and produces no
result list. -/
theorem searchCode_unindexed_is_error
    (indexStore : List (List Char × RepositoryIndexM))
    (repoId query : List Char) (options : SearchOptions)
    (h : lookupM indexStore repoId = none) :
    searchCode indexStore repoId query options =
      .error ("Repository ".toList ++ repoId ++ " not indexed".toList) ∧
    ∀ rs, searchCode indexStore repoId query options ≠ .ok rs := by
  constructor
  · simp [searchCode, h]
  · intro rs
    simp [searchCode, h]

/-- Witness for C5: the empty index store on a sample repository id. -/
theorem searchCode_unindexed_is_error_witness :
    lookupM ([] : List (List Char × RepositoryIndexM)) qRepoId = none ∧
    (searchCode [] qRepoId "x".toList ⟨none, false, none⟩ =
      .error ("Repository ".toList ++ qRepoId ++ " not indexed".toList) ∧
    ∀ rs, searchCode [] qRepoId "x".toList ⟨none, false, none⟩ ≠ .ok rs) :=
  ⟨rfl, searchCode_unindexed_is_error [] qRepoId "x".toList ⟨none, false, none⟩ rfl⟩

/-! ## Identity-key and store lemmas -/

lemma append_sep_inj (c : Char) :
    ∀ (x1 x2 y1 y2 : List Char), c ∉ x1 → c ∉ x2 →
      x1 ++ c :: y1 = x2 ++ c :: y2 → x1 = x2 ∧ y1 = y2 := by
  intro x1
  induction x1 with
  | nil =>
    intro x2 y1 y2 _ h2 heq
    cases x2 with
    | nil => simpa using heq
    | cons a t =>
      simp only [List.nil_append, List.cons_append, List.cons.injEq] at heq
      exact absurd (heq.1 ▸ List.mem_cons_self a t) h2
  | cons a t ih =>
    intro x2 y1 y2 h1 h2 heq
    cases x2 with
    | nil =>
      simp only [List.cons_append, List.nil_append, List.cons.injEq] at heq
      exact absurd (heq.1 ▸ List.mem_cons_self a t) h1
    | cons b u =>
      simp only [List.cons_append, List.cons.injEq] at heq
      have ht := ih u y1 y2 (fun hm => h1 (List.mem_cons_of_mem a hm))
        (fun hm => h2 (List.mem_cons_of_mem b hm)) heq.2
      exact ⟨by rw [heq.1, ht.1], ht.2⟩

lemma colon_not_mem_remoteStr (r : RemoteKind) : ':' ∉ remoteStr r := by
  cases r <;> decide

lemma remoteStr_inj {r1 r2 : RemoteKind} (h : remoteStr r1 = remoteStr r2) :
    r1 = r2 := by
  cases r1 <;> cases r2 <;> first
    | rfl
    | exact absurd h (by decide)

lemma lookupM_mapSet_self {α : Type} (m : List (List Char × α)) (k : List Char)
    (v : α) : lookupM (mapSet m k v) k = some v := by
  induction m with
  | nil => simp [mapSet, lookupM]
  | cons e rest ih =>
    obtain ⟨k', v'⟩ := e
    by_cases hk : k' = k
    · simp [mapSet, hk, lookupM]
    · simp [mapSet, hk, lookupM, ih]

lemma lookupM_mapSet_ne {α : Type} (m : List (List Char × α)) (k k' : List Char)
    (v : α) (h : k' ≠ k) : lookupM (mapSet m k v) k' = lookupM m k' := by
  induction m with
  | nil =>
    simp only [mapSet, lookupM]
    rw [if_neg (fun he => h he.symm)]
  | cons e rest ih =>
    obtain ⟨k'', v''⟩ := e
    by_cases hk : k'' = k
    · subst hk
      simp only [mapSet, if_pos rfl, lookupM]
      rw [if_neg (fun he => h he.symm), if_neg (fun he => h he.symm)]
    · simp only [mapSet, if_neg hk, lookupM]
      by_cases he : k'' = k'
      · simp [he]
      · simp [he, ih]

lemma mapSet_length {α : Type} (m : List (List Char × α)) (k : List Char)
    (v : α) (h : (lookupM m k).isSome) : (mapSet m k v).length = m.length := by
  induction m with
  | nil => simp [lookupM] at h
  | cons e rest ih =>
    obtain ⟨k', v'⟩ := e
    by_cases hk : k' = k
    · simp [mapSet, hk]
    · simp only [lookupM, if_neg hk] at h
      simp [mapSet, hk, ih h]

/-- C4 (amended).  Distinct `(remote, branch, owner, name)` tuples receive
distinct identity keys provided the branches contain no `:` and the owners
no `/` (the raw `${remote}:${branch}:${owner}/${name}` format is otherwise
ambiguous), and `setRepository` on an existing key overwrites the stored
record without adding an entry. -/
theorem generateRepoId_unique_and_overwrite
    (r1 r2 : RemoteKind) (o1 n1 b1 o2 n2 b2 : List Char)
    (hb1 : ':' ∉ b1) (hb2 : ':' ∉ b2) (ho1 : '/' ∉ o1) (ho2 : '/' ∉ o2)
    (hne : ¬(r1 = r2 ∧ b1 = b2 ∧ o1 = o2 ∧ n1 = n2))
    (store : List (List Char × RepositoryM)) (k : List Char) (v : RepositoryM) :
    generateRepoId r1 o1 n1 b1 ≠ generateRepoId r2 o2 n2 b2 ∧
    lookupM (setRepository store k v) k = some v ∧
    ((lookupM store k).isSome → (setRepository store k v).length = store.length) := by
  refine ⟨?_, lookupM_mapSet_self store k v, mapSet_length store k v⟩
  intro heq
  simp only [generateRepoId, List.append_assoc, List.cons_append] at heq
  have h1 := append_sep_inj ':' (remoteStr r1) (remoteStr r2) _ _
    (colon_not_mem_remoteStr r1) (colon_not_mem_remoteStr r2) heq
  have h2 := append_sep_inj ':' b1 b2 _ _ hb1 hb2 h1.2
  have h3 := append_sep_inj '/' o1 o2 _ _ ho1 ho2 h2.2
  exact hne ⟨remoteStr_inj h1.1, h2.1, h3.1, h3.2⟩

/-- Counterexample to C4 as stated: a `:` inside a branch name collides with
a `:` inside an owner name, giving two distinct tuples the same identity
key `github:b:c:o/n`. -/
theorem generateRepoId_collision :
    generateRepoId RemoteKind.github "c:o".toList "n".toList "b".toList =
      generateRepoId RemoteKind.github "o".toList "n".toList "b:c".toList ∧
    ¬("c:o".toList = "o".toList ∧ "b".toList = "b:c".toList) := by
  decide

/-- Witness for the amended C4 on two concrete tuples and the empty store. -/
theorem generateRepoId_unique_and_overwrite_witness :
    (':' ∉ "main".toList) ∧ ('/' ∉ "alice".toList) ∧ ('/' ∉ "bob".toList) ∧
    ¬(RemoteKind.github = RemoteKind.github ∧ "main".toList = "main".toList ∧
        "alice".toList = "bob".toList ∧ "x".toList = "x".toList) ∧
    (generateRepoId RemoteKind.github "alice".toList "x".toList "main".toList ≠
        generateRepoId RemoteKind.github "bob".toList "x".toList "main".toList ∧
      lookupM (setRepository [] "k".toList demoRepo) "k".toList = some demoRepo ∧
      ((lookupM ([] : List (List Char × RepositoryM)) "k".toList).isSome →
        (setRepository [] "k".toList demoRepo).length =
          ([] : List (List Char × RepositoryM)).length)) :=
  ⟨by decide, by decide, by decide, by decide,
    generateRepoId_unique_and_overwrite RemoteKind.github RemoteKind.github
      "alice".toList "x".toList "main".toList "bob".toList "x".toList "main".toList
      (by decide) (by decide) (by decide) (by decide) (by decide)
      [] "k".toList demoRepo⟩

/-! ## Function-extraction step behaviour and invariants -/

/-- C2 (amended).  When a declaration pattern matches on the line of
0-based index `i` (1-indexed line `i + 1`) while the extractor is inside a
function, the previous function is closed at `endLine = i` — the line
immediately before the declaration line, one less than the new record's
start line — and pushed; the new record opens with start line = end line =
`i + 1`, signature `name(params)`, and the brace counter reset to zero. -/
theorem extractFunctions_decl_closes_previous (filePath line : List Char)
    (i : Nat) (st : ExtractState) (f : FunctionInfoM) (name params : List Char)
    (hin : st.inFunction = true) (hcur : st.current = some f)
    (hdecl : declMatch (trimJs line) = some (name, params)) :
    declPhase filePath i line st =
      { functions := st.functions ++ [{ f with endLine := i }],
        current := some ⟨name, filePath, i + 1, i + 1,
          name ++ '(' :: params ++ [')'], [], []⟩,
        braceCount := 0,
        inFunction := true } := by
  simp [declPhase, hdecl, hcur, hin]

/-- Counterexample to C2 as stated: in a three-line file whose third line
declares `b` while `a` is still open, `a` is pushed with `endLine = 2`, not
with the declaration's own line 3, so the previous function is not closed
at the current line. -/
theorem extractFunctions_decl_close_counterexample :
    (extractFunctions demoContent "f.ts".toList "typescript".toList).map
        (fun fn => (fn.name, fn.startLine, fn.endLine)) =
      [("a".toList, 1, 2), ("b".toList, 3, 3)] ∧
    declMatch (trimJs "function b(y) \x7b".toList) =
      some ("b".toList, "y".toList) := by
  decide

/-- Witness for the amended C2: the declaration of `b` on 0-based line 2
closes the open record for `a` at `endLine = 2`. -/
theorem extractFunctions_decl_closes_previous_witness :
    (⟨[], some recA, 1, true⟩ : ExtractState).inFunction = true ∧
    (⟨[], some recA, 1, true⟩ : ExtractState).current = some recA ∧
    declMatch (trimJs "function b(y) \x7b".toList) =
      some ("b".toList, "y".toList) ∧
    declPhase "f.ts".toList 2 "function b(y) \x7b".toList
        ⟨[], some recA, 1, true⟩ =
      { functions := [{ recA with endLine := 2 }],
        current := some ⟨"b".toList, "f.ts".toList, 3, 3,
          "b".toList ++ '(' :: "y".toList ++ [')'], [], []⟩,
        braceCount := 0,
        inFunction := true } :=
  ⟨rfl, rfl, by decide,
    extractFunctions_decl_closes_previous "f.ts".toList
      "function b(y) \x7b".toList 2 ⟨[], some recA, 1, true⟩ recA
      "b".toList "y".toList rfl rfl (by decide)⟩

lemma declPhase_inv (filePath line : List Char) (i : Nat) (st : ExtractState)
    (hfns : ∀ fn ∈ st.functions, 1 ≤ fn.startLine ∧ fn.startLine ≤ fn.endLine)
    (hcur : ∀ f, st.current = some f → 1 ≤ f.startLine ∧ f.startLine ≤ i) :
    (∀ fn ∈ (declPhase filePath i line st).functions,
      1 ≤ fn.startLine ∧ fn.startLine ≤ fn.endLine) ∧
    (∀ f, (declPhase filePath i line st).current = some f →
      1 ≤ f.startLine ∧ f.startLine ≤ i + 1) := by
  unfold declPhase
  cases hd : declMatch (trimJs line) with
  | none =>
    exact ⟨hfns, fun f hf => ⟨(hcur f hf).1, le_trans (hcur f hf).2 (Nat.le_succ i)⟩⟩
  | some nm =>
    constructor
    · intro fn hfn
      dsimp only at hfn
      rcases hc : st.current with _ | f
      · rw [hc] at hfn
        cases hb : st.inFunction <;> rw [hb] at hfn <;> exact hfns fn hfn
      · rw [hc] at hfn
        cases hb : st.inFunction <;> rw [hb] at hfn
        · exact hfns fn hfn
        · rcases List.mem_append.mp hfn with hmem | hmem
          · exact hfns fn hmem
          · have hf := hcur f hc
            simp only [List.mem_singleton] at hmem
            subst hmem
            exact ⟨hf.1, hf.2⟩
    · intro f hf
      dsimp only at hf
      simp only [Option.some.injEq] at hf
      subst hf
      exact ⟨Nat.le_add_left 1 i, Nat.le_refl _⟩

lemma bracePhase_inv (line : List Char) (i : Nat) (st : ExtractState)
    (hfns : ∀ fn ∈ st.functions, 1 ≤ fn.startLine ∧ fn.startLine ≤ fn.endLine)
    (hcur : ∀ f, st.current = some f → 1 ≤ f.startLine ∧ f.startLine ≤ i + 1) :
    (∀ fn ∈ (bracePhase i line st).functions,
      1 ≤ fn.startLine ∧ fn.startLine ≤ fn.endLine) ∧
    (∀ f, (bracePhase i line st).current = some f →
      1 ≤ f.startLine ∧ f.startLine ≤ i + 1) := by
  unfold bracePhase
  cases hb : st.inFunction with
  | false => exact ⟨hfns, hcur⟩
  | true =>
    cases hc : st.current with
    | none => exact ⟨hfns, hcur⟩
    | some f =>
      dsimp only
      split
      · constructor
        · intro fn hfn
          dsimp only at hfn
          rcases List.mem_append.mp hfn with hmem | hmem
          · exact hfns fn hmem
          · have hf := hcur f hc
            simp only [List.mem_singleton] at hmem
            subst hmem
            exact ⟨hf.1, hf.2⟩
        · intro f' hf'
          simp at hf'
      · refine ⟨hfns, fun f' hf' => ?_⟩
        have hff : f = f' := by simpa [hc] using hf'
        subst hff
        exact hcur f hc

lemma extractLoop_inv (filePath : List Char) :
    ∀ (ls : List (List Char)) (i : Nat) (st : ExtractState),
      (∀ fn ∈ st.functions, 1 ≤ fn.startLine ∧ fn.startLine ≤ fn.endLine) →
      (∀ f, st.current = some f → 1 ≤ f.startLine ∧ f.startLine ≤ i) →
      (∀ fn ∈ (extractLoop filePath i ls st).functions,
        1 ≤ fn.startLine ∧ fn.startLine ≤ fn.endLine) ∧
      (∀ f, (extractLoop filePath i ls st).current = some f →
        1 ≤ f.startLine ∧ f.startLine ≤ i + ls.length) := by
  intro ls
  induction ls with
  | nil =>
    intro i st h1 h2
    simpa [extractLoop] using ⟨h1, h2⟩
  | cons l ls ih =>
    intro i st h1 h2
    have hd := declPhase_inv filePath l i st h1 h2
    have hb := bracePhase_inv l i (declPhase filePath i l st) hd.1 hd.2
    have := ih (i + 1) (processLine filePath i l st) hb.1 hb.2
    refine ⟨this.1, fun f hf => ?_⟩
    have hres := this.2 f hf
    refine ⟨hres.1, ?_⟩
    have : i + 1 + ls.length = i + (l :: ls).length := by
      simp [List.length_cons]
      omega
    omega

/-- C6.  Every function record produced by `extractFunctions` — whichever of
the three closing paths produced it — has a 1-indexed start line and
satisfies `startLine ≤ endLine`. -/
theorem extractFunctions_startLine_le_endLine
    (content filePath language : List Char) (fn : FunctionInfoM)
    (h : fn ∈ extractFunctions content filePath language) :
    1 ≤ fn.startLine ∧ fn.startLine ≤ fn.endLine := by
  unfold extractFunctions at h
  dsimp only at h
  have hinv := extractLoop_inv filePath (content.splitOn '\n') 0
    ⟨[], none, 0, false⟩ (by simp) (by simp)
  set final := extractLoop filePath 0 (content.splitOn '\n') ⟨[], none, 0, false⟩
    with hfinal
  rcases hc : final.current with _ | f
  · rw [hc] at h
    cases hb : final.inFunction <;> rw [hb] at h <;> exact hinv.1 fn h
  · rw [hc] at h
    cases hb : final.inFunction <;> rw [hb] at h
    · exact hinv.1 fn h
    · rcases List.mem_append.mp h with hmem | hmem
      · exact hinv.1 fn hmem
      · have hf := hinv.2 f hc
        simp only [List.mem_singleton] at hmem
        subst hmem
        refine ⟨hf.1, ?_⟩
        simpa using hf.2

/-- Witness for C6: the record for `a` extracted from the three-line file. -/
theorem extractFunctions_startLine_le_endLine_witness :
    ({ recA with endLine := 2 } : FunctionInfoM) ∈
        extractFunctions demoContent "f.ts".toList "typescript".toList ∧
    (1 ≤ ({ recA with endLine := 2 } : FunctionInfoM).startLine ∧
      ({ recA with endLine := 2 } : FunctionInfoM).startLine ≤
        ({ recA with endLine := 2 } : FunctionInfoM).endLine) :=
  ⟨by decide,
    extractFunctions_startLine_le_endLine demoContent "f.ts".toList
      "typescript".toList _ (by decide)⟩

/-! ## Ignore-rule and index-construction lemmas -/

lemma foldl_ignores_of_match (path : List Char) :
    ∀ (rs : List IgnoreRule) (b : Bool),
      (∀ r ∈ rs, r.negated = false) →
      ((∃ r ∈ rs, ruleMatches r.pattern path = true) ∨ b = true) →
      rs.foldl (fun acc r => if ruleMatches r.pattern path then !r.negated else acc)
        b = true := by
  intro rs
  induction rs with
  | nil =>
    intro b _ hor
    rcases hor with ⟨r, hr, _⟩ | hb
    · cases hr
    · simpa using hb
  | cons r rs ih =>
    intro b hneg hor
    simp only [List.foldl_cons]
    by_cases hm : ruleMatches r.pattern path = true
    · rw [if_pos hm, hneg r (List.mem_cons_self r rs)]
      exact ih _ (fun r' hr' => hneg r' (List.mem_cons_of_mem r hr')) (Or.inr rfl)
    · rw [if_neg hm]
      refine ih b (fun r' hr' => hneg r' (List.mem_cons_of_mem r hr')) ?_
      rcases hor with ⟨r', hr', hm'⟩ | hb
      · rcases List.mem_cons.mp hr' with hre | hr'
        · exact absurd (hre ▸ hm') hm
        · exact Or.inl ⟨r', hr', hm'⟩
      · exact Or.inr hb

lemma ignores_of_builtin_match (repoRules : List (List Char)) (path : List Char)
    (h : ∃ p ∈ IGNORE_PATTERNS, ruleMatches p path = true) :
    ignores (allIgnoreRules repoRules) path = true := by
  have hplain : ∀ p ∈ IGNORE_PATTERNS, parseRule p = ⟨false, p⟩ := by decide
  obtain ⟨p, hp, hm⟩ := h
  unfold ignores allIgnoreRules
  rw [List.map_append, List.foldl_append]
  refine foldl_ignores_of_match path _ _ ?_ (Or.inl ?_)
  · intro r hr
    obtain ⟨p', hp', hpr⟩ := List.mem_map.mp hr
    rw [← hpr, hplain p' hp']
  · refine ⟨parseRule p, List.mem_map_of_mem parseRule hp, ?_⟩
    rw [hplain p hp]
    exact hm

lemma lookupM_build_none {α : Type} (g : List Char × List Char → α)
    (path : List Char) :
    ∀ (l : List (List Char × List Char)) (m : List (List Char × α)),
      lookupM m path = none → path ∉ l.map Prod.fst →
      lookupM (l.foldl (fun m f => mapSet m f.1 (g f)) m) path = none := by
  intro l
  induction l with
  | nil => intro m hm _; simpa using hm
  | cons f l ih =>
    intro m hm hnot
    simp only [List.map_cons, List.mem_cons] at hnot
    push_neg at hnot
    simp only [List.foldl_cons]
    refine ih (mapSet m f.1 (g f)) ?_ (by simpa using hnot.2)
    rw [lookupM_mapSet_ne m f.1 path (g f) hnot.1]
    exact hm

/-- C7.  A path matched by any built-in exclusion pattern never enters the
index's file table nor the eligible-file list whose length is the
files-processed count; and every indexed file has an indexable extension and
is rejected by no combined ignore rule (the resolver's last-match-wins
verdict over repository rules followed by built-ins). -/
theorem index_excludes_builtin_ignored (repoRules : List (List Char))
    (allFiles : List (List Char × List Char)) (path : List Char)
    (h : ∃ p ∈ IGNORE_PATTERNS, ruleMatches p path = true) :
    lookupM (indexRepository repoRules allFiles).index.files path = none ∧
    path ∉ (eligibleFiles repoRules allFiles).map Prod.fst ∧
    (indexRepository repoRules allFiles).filesProcessed =
      (eligibleFiles repoRules allFiles).length ∧
    ∀ f ∈ eligibleFiles repoRules allFiles,
      lowerJs (extnameOf f.1) ∈ CODE_EXTENSIONS ∧
      ignores (allIgnoreRules repoRules) f.1 = false := by
  have hig := ignores_of_builtin_match repoRules path h
  have hnot : path ∉ (eligibleFiles repoRules allFiles).map Prod.fst := by
    intro hmem
    obtain ⟨f, hf, hfp⟩ := List.mem_map.mp hmem
    have hpred := List.of_mem_filter hf
    rw [hfp] at hpred
    simp only [Bool.and_eq_true, Bool.not_eq_true'] at hpred
    rw [hpred.2] at hig
    cases hig
  refine ⟨?_, hnot, rfl, ?_⟩
  · exact lookupM_build_none _ path (eligibleFiles repoRules allFiles) []
      rfl hnot
  · intro f hf
    have hpred := List.of_mem_filter hf
    simp only [Bool.and_eq_true, Bool.not_eq_true', decide_eq_true_eq] at hpred
    exact hpred

/-- Witness for C7: a dependency-directory file with an indexable extension
is excluded while a sibling is indexed. -/
theorem index_excludes_builtin_ignored_witness :
    (∃ p ∈ IGNORE_PATTERNS, ruleMatches p "node_modules/a.ts".toList = true) ∧
    (lookupM (indexRepository []
        [("node_modules/a.ts".toList, "x".toList), ("b.ts".toList, "y".toList)]).index.files
        "node_modules/a.ts".toList = none ∧
      "node_modules/a.ts".toList ∉
        (eligibleFiles []
          [("node_modules/a.ts".toList, "x".toList), ("b.ts".toList, "y".toList)]).map
          Prod.fst ∧
      (indexRepository []
        [("node_modules/a.ts".toList, "x".toList), ("b.ts".toList, "y".toList)]).filesProcessed =
        (eligibleFiles []
          [("node_modules/a.ts".toList, "x".toList), ("b.ts".toList, "y".toList)]).length ∧
      ∀ f ∈ eligibleFiles []
          [("node_modules/a.ts".toList, "x".toList), ("b.ts".toList, "y".toList)],
        lowerJs (extnameOf f.1) ∈ CODE_EXTENSIONS ∧
        ignores (allIgnoreRules []) f.1 = false) :=
  ⟨by decide,
    index_excludes_builtin_ignored []
      [("node_modules/a.ts".toList, "x".toList), ("b.ts".toList, "y".toList)]
      "node_modules/a.ts".toList (by decide)⟩

/-- C8.  Indexing a repository holding one file `main.ts` whose content is
the single exported arrow-function declaration
`export const add = (a, b) => a + b` produces exactly one function record —
`add`, spanning line 1 to line 1, keyed `main.ts:add` — and an export list
for `main.ts` containing `add`. -/
theorem scenarioA_one_line_arrow_function :
    (indexRepository [] [("main.ts".toList, scenarioAContent)]).index.functions =
      [("main.ts:add".toList,
        ⟨"add".toList, "main.ts".toList, 1, 1, "add(a, b)".toList, [], []⟩)] ∧
    lookupM (indexRepository [] [("main.ts".toList, scenarioAContent)]).index.exports
        "main.ts".toList = some ["add".toList] := by
  decide

/-! ## Deduplication lemmas -/

lemma deduplicateResults_go :
    ∀ (rs : List QItem) (acc : List QItem) (seen : List (List Char)),
      (rs.foldl
        (fun st r =>
          if dedupKey r ∈ st.2 then st else (st.1 ++ [r], dedupKey r :: st.2))
        ((acc, seen) : List QItem × List (List Char))).1 =
      acc ++ firstOccurrencePerKey (rs.filter (fun r => decide (dedupKey r ∉ seen))) := by
  intro rs
  induction rs with
  | nil =>
    intro acc seen
    simp [firstOccurrencePerKey]
  | cons r rs ih =>
    intro acc seen
    simp only [List.foldl_cons]
    by_cases hmem : dedupKey r ∈ seen
    · rw [if_pos hmem, List.filter_cons_of_neg (by simpa using hmem)]
      exact ih acc seen
    · rw [if_neg hmem, List.filter_cons_of_pos (by simpa using hmem)]
      rw [ih (acc ++ [r]) (dedupKey r :: seen), List.append_assoc]
      simp only [List.singleton_append]
      congr 1
      rw [firstOccurrencePerKey, List.filter_filter]
      have hfe : rs.filter (fun x => decide (dedupKey x ∉ dedupKey r :: seen)) =
          rs.filter (fun a =>
            decide (dedupKey a ≠ dedupKey r) && decide (dedupKey a ∉ seen)) := by
        apply List.filter_congr
        intro x _
        rcases Decidable.em (dedupKey x = dedupKey r) with he | he <;>
          rcases Decidable.em (dedupKey x ∈ seen) with hs | hs <;>
          simp [he, hs]
      rw [hfe]

/-- C9.  Keyword extraction reduces `"How does add work?"` to exactly
`[add, work]`; `deduplicateResults` keeps exactly the first occurrence of
each `repoId:file:line` key (so a line matched by several keywords survives
once); and results agreeing on repository, file and line share one key. -/
theorem extractKeywords_and_dedup :
    extractKeywords "How does add work?".toList =
      ["add".toList, "work".toList] ∧
    (∀ rs : List QItem, deduplicateResults rs = firstOccurrencePerKey rs) ∧
    (∀ a b : QItem, a.repoId = b.repoId → a.file = b.file → a.line = b.line →
      dedupKey a = dedupKey b) := by
  refine ⟨by decide, ?_, ?_⟩
  · intro rs
    unfold deduplicateResults
    rw [deduplicateResults_go rs [] []]
    simp only [List.nil_append]
    congr 1
    apply List.filter_eq_self.mpr
    intro r _
    simp
  · intro a b h1 h2 h3
    simp [dedupKey, h1, h2, h3]

/-- Witness for C9: two results on the same `(repository, file, line)`
triple share a key, and their deduplication keeps the first occurrence. -/
theorem extractKeywords_and_dedup_witness :
    dupA.repoId = dupB.repoId ∧ dupA.file = dupB.file ∧ dupA.line = dupB.line ∧
    dedupKey dupA = dedupKey dupB ∧
    deduplicateResults [dupA, dupB] = firstOccurrencePerKey [dupA, dupB] :=
  ⟨rfl, rfl, rfl,
    extractKeywords_and_dedup.2.2 dupA dupB rfl rfl rfl,
    extractKeywords_and_dedup.2.1 [dupA, dupB]⟩

/-! ## Query fan-out lemmas -/

lemma pairResults_length_le (indexStore : List (List Char × RepositoryIndexM))
    (rid kw : List Char) : (pairResults indexStore rid kw).length ≤ 10 := by
  unfold pairResults
  cases lookupM indexStore rid with
  | none => simp
  | some idx =>
    simpa using searchCodeIndexed_length_le idx kw none false 10 (by omega)

lemma queryInner_ok (indexStore : List (List Char × RepositoryIndexM))
    (repoId : List Char) :
    ∀ (kws : List (List Char)) (acc rs : List QItem),
      kws.foldlM
        (fun acc2 kw => do
          let results ← searchCode indexStore repoId kw ⟨none, false, some 10⟩
          pure (acc2 ++ results.map (fun r => ⟨repoId, r.file, r.line, r.content⟩)))
        acc = Except.ok rs →
      rs = acc ++ kws.flatMap (fun kw => pairResults indexStore repoId kw) := by
  intro kws
  induction kws with
  | nil =>
    intro acc rs h
    simp only [List.foldlM_nil] at h
    cases h
    simp
  | cons kw kws ih =>
    intro acc rs h
    rw [List.foldlM_cons] at h
    cases hsc : searchCode indexStore repoId kw ⟨none, false, some 10⟩ with
    | error e =>
      rw [hsc] at h
      simp only [Bind.bind, Except.bind] at h
      exact Except.noConfusion h
    | ok results =>
      rw [hsc] at h
      simp only [Bind.bind, Except.bind] at h
      have hmid := ih _ rs h
      cases hlk : lookupM indexStore repoId with
      | none => simp [searchCode, hlk] at hsc
      | some idx =>
        simp only [searchCode, hlk, Except.ok.injEq] at hsc
        rw [hmid, List.flatMap_cons, ← List.append_assoc]
        congr 2
        simp [pairResults, hlk, hsc]

lemma queryOuter_ok (repoStore : List (List Char × RepositoryM))
    (indexStore : List (List Char × RepositoryIndexM)) (query : List Char) :
    ∀ (repos : List RepoRef) (acc rs : List QItem),
      repos.foldlM
        (fun acc repo =>
          let repoId := generateRepoId repo.remote repo.owner repo.repository repo.branch
          match lookupM repoStore repoId with
          | some repoData =>
            if repoData.status = RepoStatus.ready then
              (extractKeywords query).foldlM
                (fun acc2 kw => do
                  let results ← searchCode indexStore repoId kw ⟨none, false, some 10⟩
                  pure (acc2 ++
                    results.map (fun r => ⟨repoId, r.file, r.line, r.content⟩)))
                acc
            else pure acc
          | none => pure acc)
        acc = Except.ok rs →
      rs = acc ++ (repos.filter (fun repo => isReadyIn repoStore repo)).flatMap
        (fun repo => (extractKeywords query).flatMap
          (fun kw => pairResults indexStore (refId repo) kw)) := by
  intro repos
  induction repos with
  | nil =>
    intro acc rs h
    simp only [List.foldlM_nil] at h
    cases h
    simp
  | cons repo repos ih =>
    intro acc rs h
    rw [List.foldlM_cons] at h
    dsimp only at h
    cases hlk : lookupM repoStore
        (generateRepoId repo.remote repo.owner repo.repository repo.branch) with
    | none =>
      rw [hlk] at h
      simp only [Bind.bind, Except.bind, pure, Except.pure] at h
      have hrs := ih acc rs h
      have hnr : isReadyIn repoStore repo = false := by
        simp [isReadyIn, refId, hlk]
      rw [List.filter_cons_of_neg (by simp [hnr])]
      exact hrs
    | some repoData =>
      rw [hlk] at h
      dsimp only at h
      by_cases hst : repoData.status = RepoStatus.ready
      · rw [if_pos hst] at h
        cases hin : (extractKeywords query).foldlM
            (fun acc2 kw => do
              let results ← searchCode indexStore
                (generateRepoId repo.remote repo.owner repo.repository repo.branch)
                kw ⟨none, false, some 10⟩
              pure (acc2 ++
                results.map (fun (r : SearchResult) =>
                  (⟨generateRepoId repo.remote repo.owner repo.repository repo.branch,
                    r.file, r.line, r.content⟩ : QItem))))
            acc with
        | error e =>
          rw [hin] at h
          simp only [Bind.bind, Except.bind] at h
          exact Except.noConfusion h
        | ok mid =>
          rw [hin] at h
          simp only [Bind.bind, Except.bind] at h
          have hmid := queryInner_ok indexStore _ (extractKeywords query) acc mid hin
          have hrs := ih mid rs h
          have hr : isReadyIn repoStore repo = true := by
            simp [isReadyIn, refId, hlk, hst]
          rw [List.filter_cons_of_pos (by simp [hr])]
          rw [hrs, hmid, List.flatMap_cons, List.append_assoc]
          rfl
      · rw [if_neg hst] at h
        simp only [Bind.bind, Except.bind, pure, Except.pure] at h
        have hrs := ih acc rs h
        have hnr : isReadyIn repoStore repo = false := by
          simp [isReadyIn, refId, hlk, hst]
        rw [List.filter_cons_of_neg (by simp [hnr])]
        exact hrs

/-- C10.  In `git_query_codebase`, every per-keyword `searchCode` call is
issued with `{ limit: 10 }`: the accumulated pre-deduplication result list
decomposes exactly into one block per ready repository and extracted
keyword, and every such block carries at most 10 matches. -/
theorem query_fanout_per_pair_limit
    (repoStore : List (List Char × RepositoryM))
    (indexStore : List (List Char × RepositoryIndexM))
    (repositories : List RepoRef) (query : List Char) (rs : List QItem)
    (h : queryAllResults repoStore indexStore repositories query = .ok rs) :
    rs = (repositories.filter (fun repo => isReadyIn repoStore repo)).flatMap
        (fun repo => (extractKeywords query).flatMap
          (fun kw => pairResults indexStore (refId repo) kw)) ∧
    ∀ rid kw, (pairResults indexStore rid kw).length ≤ 10 := by
  constructor
  · have := queryOuter_ok repoStore indexStore query repositories [] rs h
    simpa using this
  · intro rid kw
    exact pairResults_length_le indexStore rid kw

/-- Witness for C10: one ready repository holding the Scenario A index,
queried with a natural-language question. -/
theorem query_fanout_per_pair_limit_witness :
    queryAllResults [(qRepoId, qRepo)] [(qRepoId, qIndex)] [qRef]
        "How does add work?".toList =
      .ok [⟨qRepoId, "main.ts".toList, 1, scenarioAContent⟩] ∧
    ([⟨qRepoId, "main.ts".toList, 1, scenarioAContent⟩] : List QItem) =
        (([qRef].filter (fun repo => isReadyIn [(qRepoId, qRepo)] repo)).flatMap
          (fun repo => (extractKeywords "How does add work?".toList).flatMap
            (fun kw => pairResults [(qRepoId, qIndex)] (refId repo) kw))) ∧
    ∀ rid kw, (pairResults [(qRepoId, qIndex)] rid kw).length ≤ 10 :=
  ⟨rfl,
    (query_fanout_per_pair_limit [(qRepoId, qRepo)] [(qRepoId, qIndex)] [qRef]
      "How does add work?".toList
      [⟨qRepoId, "main.ts".toList, 1, scenarioAContent⟩] rfl).1,
    (query_fanout_per_pair_limit [(qRepoId, qRepo)] [(qRepoId, qIndex)] [qRef]
      "How does add work?".toList
      [⟨qRepoId, "main.ts".toList, 1, scenarioAContent⟩] rfl).2⟩

end CodebaseAgent
